import Mathlib

/-!
# Search overlay and lightbox scripts of the generated wiki

Shallow embedding of `search.js`, `searchOnTitles.js` and `lightbox.js`.

* JavaScript strings are Lean `String`s; the result of a property read on the
  `paths` object (a string, `undefined`, or a member inherited from
  `Object.prototype`) is a `JSVal`.
* The global `paths` object is a `PathTable`: a function from property name to
  the value a read of that property yields, own properties first, then the
  members of `Object.prototype`.
* An assignment to `window.location.href` is modelled by the string that is
  assigned: a handler returns `some target` when it assigns and `none` when it
  does not.
-/

namespace Wiki

/-! ## JavaScript values -/

/-- The values a read of `paths[name]` can produce: `native name` is the
built-in function of that name and `objectPrototype` the object
`Object.prototype`, both reached through inheritance. -/
inductive JSVal where
  | undefined
  | null
  | str (s : String)
  | native (name : String)
  | objectPrototype
  deriving DecidableEq, Repr

/-- ToString conversion, as applied by `+` with a string operand and by the
assignment to `window.location.href`.  A built-in function prints in the
`NativeFunction` form (with the white space V8 and JavaScriptCore use), and
`Object.prototype` as a plain object. -/
def JSVal.toStr : JSVal → String
  | .undefined => "undefined"
  | .null => "null"
  | .str s => s
  | .native name => "function " ++ name ++ "() \x7b [native code] \x7d"
  | .objectPrototype => "[object Object]"

/-! ## Data model -/

/-- One record of the article index (`data[i]`). -/
structure ArticleRecord where
  name : String
  category : String
  title : String
  titleID : String
  url : String
  deriving DecidableEq, Repr

/-- The `item` objects the category-aware loader stores in `tags`. -/
structure Item where
  name : String
  category : String
  title : String
  titleID : String
  label : String
  deriving DecidableEq, Repr

/-- The global `paths` object: property name to the value read from it. -/
def PathTable := String → JSVal

/-- The value of the property `k` of `Object.prototype`: the accessor
`__proto__` yields `Object.prototype` itself, `constructor` the function
`Object`, the other members are functions of their own name, and any other
name is absent. -/
def objectPrototypeMember (k : String) : JSVal :=
  if k = "__proto__" then JSVal.objectPrototype
  else if k = "constructor" then JSVal.native "Object"
  else if k ∈ ["hasOwnProperty", "isPrototypeOf", "propertyIsEnumerable",
      "toLocaleString", "toString", "valueOf", "__defineGetter__",
      "__defineSetter__", "__lookupGetter__", "__lookupSetter__"] then JSVal.native k
  else JSVal.undefined

/-- The table made by `new Object()`: it has no own property, so every read
yields the member of `Object.prototype` of that name, or `undefined`. -/
def PathTable.empty : PathTable := objectPrototypeMember

/-- The assignment `paths[name] = url` of a string `url`.  For the name
`__proto__` it runs the setter inherited from `Object.prototype`, which
ignores a value that is neither an object nor `null`: the table is unchanged.
For any other name it creates or overwrites an own property, which shadows an
inherited member of that name. -/
def PathTable.set (paths : PathTable) (name url : String) : PathTable :=
  if name = "__proto__" then paths
  else fun k => if k = name then JSVal.str url else paths k

/-! ## Index loaders -/

/-- The loop of `search.js` lines 24-30, run on the parsed `data`, from given
`tags` and `paths`: `tags[i] = name; paths[name] = url`. -/
def plainLoop : List ArticleRecord → List String × PathTable → List String × PathTable
  | [], st => st
  | r :: rest, (tags, paths) => plainLoop rest (tags ++ [r.name], paths.set r.name r.url)

/-- The `success` callback of `search.js` up to the widget creation. -/
def plainLoad (data : List ArticleRecord) : List String × PathTable :=
  plainLoop data ([], PathTable.empty)

/-- The `item` built in `searchOnTitles.js` lines 40-49. -/
def mkItem (r : ArticleRecord) : Item :=
  { name := r.name
    category := r.category
    title := r.title
    titleID := r.titleID
    label := if r.category = "articles" then r.name else r.title }

/-- The loop of `searchOnTitles.js` lines 39-53: `tags[i] = item;
paths[item.name] = url`. -/
def titlesLoop : List ArticleRecord → List Item × PathTable → List Item × PathTable
  | [], st => st
  | r :: rest, (tags, paths) =>
      let item := mkItem r
      titlesLoop rest (tags ++ [item], paths.set item.name r.url)

/-- The index build of `searchOnTitles.js` on `data = getArticles()`. -/
def titlesLoad (data : List ArticleRecord) : List Item × PathTable :=
  titlesLoop data ([], PathTable.empty)

/-! ## Select handlers -/

/-- The three-way branch on `articleLevel` shared by both `select` handlers
(`search.js` 37-43, `searchOnTitles.js` 64-70): the string assigned to
`window.location.href`. -/
def navigate (articleLevel : Nat) (path : JSVal) : String :=
  if articleLevel = 0 then path.toStr
  else if articleLevel = 1 then "../" ++ path.toStr
  else "../.." ++ path.toStr

/-- The `select` handler of `search.js`.  `ui.item.label` is a string, so the
outer test `ui.item.label !== null` holds; `path !== null` is kept. -/
def plainSelect (paths : PathTable) (articleLevel : Nat) (label : String) : Option String :=
  let path := paths label
  if path ≠ JSVal.null then some (navigate articleLevel path) else none

/-- The value of `path` in the `select` handler of `searchOnTitles.js` after
lines 61-63 (`if (title != "") path = path + "#" + ui.item.titleID`). -/
def withFragment (path : JSVal) (title titleID : String) : JSVal :=
  if title ≠ "" then JSVal.str (path.toStr ++ "#" ++ titleID) else path

/-- The `select` handler of `searchOnTitles.js`.  `ui.item.name` is a string,
so the outer test `ui.item.name !== null` holds; `path !== null` is kept. -/
def titlesSelect (paths : PathTable) (articleLevel : Nat) (item : Item) : Option String :=
  let path := paths item.name
  let title := item.title
  if path ≠ JSVal.null then
    some (navigate articleLevel (withFragment path title item.titleID))
  else none

/-! ## Depth detection -/

/-- The segments of a character sequence cut at every `sep`, as
`String.prototype.split` with a one-character separator yields them: `k`
separators give `k + 1` segments, empty ones included. -/
def splitChars (sep : Char) : List Char → List (List Char)
  | [] => [[]]
  | c :: cs =>
      if c = sep then [] :: splitChars sep cs
      else
        match splitChars sep cs with
        | [] => [[c]]
        | seg :: segs => (c :: seg) :: segs

/-- The array `loc.split("/")`. -/
def jsSplit (loc : String) : List String :=
  (splitChars '/' loc.data).map String.mk

/-- The document-ready handler of `search.js`, lines 7-18, on
`loc = window.location.href`: the pair `(jsonPath, articleLevel)` it leaves. -/
def plainDetect (loc : String) : String × Nat :=
  let split := jsSplit loc
  if split.length > 3 then
    if split[split.length - 2]? = some "articles" then
      ("../resources/articles.json", 1)
    else if split.length > 4 ∧ split[split.length - 3]? = some "articles" then
      ("../../resources/articles.json", 2)
    else ("./resources/articles.json", 0)
  else ("./resources/articles.json", 0)

/-- The depth detection of `searchOnTitles.js`, lines 28-36: the value of
`articleLevel` it leaves. -/
def titlesDetect (loc : String) : Nat :=
  let split := jsSplit loc
  if split.length > 3 then
    if split[split.length - 2]? = some "articles" then 1
    else if split.length > 4 ∧ split[split.length - 3]? = some "articles" then 2
    else 0
  else 0

/-! ## Rendering of a suggestion line -/

/-- The part of `replaceMask` before `$&`. -/
def emphOpen : String := "<b style=\"font-weight:bold;text-decoration:underline;\">"

/-- The part of `replaceMask` after `$&`. -/
def emphClose : String := "</b>"

/-- The replacement for one match `m`: `replaceMask` with `$&` filled in. -/
def emph (m : List Char) : List Char := emphOpen.data ++ m ++ emphClose.data

/-- Characters that `new RegExp(searchMask)` reads as operators. -/
def regexMeta : List Char :=
  ['\\', '^', '$', '.', '|', '?', '*', '+', '(', ')', '[', ']', '{', '}']

/-- A search text every character of which the regular expression matches
literally: ASCII and no operator.  The model of `replace` below is the
behaviour of the scripts for such search texts. -/
def isLiteral (searchMask : String) : Bool :=
  searchMask.data.all (fun c => decide (c.val < 128) && !regexMeta.contains c)

/-- Case folding of the `i` flag on a literal ASCII pattern character and a
subject character: upper-casing of ASCII letters, identity elsewhere. -/
def canon (c : Char) : Char := c.toUpper

/-- Whether the literal pattern `mask` matches, ignoring case, at the head of
the subject. -/
def matchesAt : List Char → List Char → Bool
  | [], _ => true
  | _ :: _, [] => false
  | m :: ms, c :: cs => canon m == canon c && matchesAt ms cs

/-- The scan of `subject.replace(new RegExp(mask, "ig"), replaceMask)`, with
one unit of fuel per step: at each position the pattern is tried; a match is
emitted inside the emphasis markup and the scan resumes after it (one
character further on for an empty match); otherwise the character is copied. -/
def replaceAux (mask : List Char) : Nat → List Char → List Char
  | 0, s => s
  | _ + 1, [] => if mask = [] then emph [] else []
  | fuel + 1, c :: cs =>
      if matchesAt mask (c :: cs) then
        if mask = [] then emph [] ++ c :: replaceAux mask fuel cs
        else emph ((c :: cs).take mask.length)
          ++ replaceAux mask fuel ((c :: cs).drop mask.length)
      else c :: replaceAux mask fuel cs

/-- The value of `subject.replace(regEx, replaceMask)`: the scan with fuel for
every position of the subject and its end. -/
def jsReplace (searchMask subject : String) : String :=
  String.mk (replaceAux searchMask.data (subject.length + 1) subject.data)

/-- The `html` of `_renderItem` in `search.js` for the search text
`searchMask = this.element.val()` and the label of the item. -/
def plainRenderItem (searchMask label : String) : String :=
  jsReplace searchMask label

/-- The `html` of `_renderItem` in `searchOnTitles.js`. -/
def titlesRenderItem (searchMask : String) (item : Item) : String :=
  if item.category = "articles" then jsReplace searchMask item.name
  else if item.category = "titles" then
    "<i>" ++ item.name ++ "</i> : " ++ jsReplace searchMask item.title
  else item.label

/-! ## Rendering of the menu -/

/-- A row appended to the menu `ul`: a category header
(`li.ui-autocomplete-category` with the category as text) or the line of an
item with its `aria-label`, if one is set. -/
inductive Row where
  | category (text : String)
  | item (it : Item) (ariaLabel : Option String)
  deriving DecidableEq, Repr

/-- The line `_renderItemData` appends for an item, with the `aria-label` that
`_renderMenu` adds when `item.category` is truthy (a non-empty string). -/
def itemRow (item : Item) : Row :=
  Row.item item
    (if item.category ≠ "" then some (item.category ++ " : " ++ item.label) else none)

/-- The `$.each` loop of `_renderMenu` from a given `currentCategory`: the rows
appended to `ul`, in order. -/
def renderMenuFrom (currentCategory : String) : List Item → List Row
  | [] => []
  | item :: rest =>
      if item.category ≠ currentCategory then
        Row.category item.category :: itemRow item :: renderMenuFrom item.category rest
      else itemRow item :: renderMenuFrom currentCategory rest

/-- The rows `_renderMenu(ul, items)` appends to the menu: the loop started
with `currentCategory = ""`. -/
def renderMenu (items : List Item) : List Row :=
  renderMenuFrom "" items

/-- Whether a row of the menu is a category header. -/
def Row.isCategory : Row → Bool
  | Row.category _ => true
  | Row.item _ _ => false

/-- Equal categories are contiguous: whenever two positions carry the same
category, so does every position between them. -/
def Contiguous (cats : List String) : Prop :=
  ∀ (i j k : Nat) (c : String), i < j → j < k →
    cats[i]? = some c → cats[k]? = some c → cats[j]? = some c

/-! ## Lightbox -/

/-- The text of the nodes that the HTML parser builds from the characters of
a markup string assigned to `innerHTML`, with one unit of fuel per step: the
references `&amp;`, `&lt;` and `&gt;` stand for their character, the tags
`<b>` and `</b>` open and close an element and leave no text, every other
character is text. -/
def parseTextAux : Nat → List Char → List Char
  | 0, _ => []
  | _ + 1, [] => []
  | fuel + 1, c :: rest =>
      if c = '&' then
        if "amp;".data.isPrefixOf rest then '&' :: parseTextAux fuel (rest.drop 4)
        else if "lt;".data.isPrefixOf rest then '<' :: parseTextAux fuel (rest.drop 3)
        else if "gt;".data.isPrefixOf rest then '>' :: parseTextAux fuel (rest.drop 3)
        else '&' :: parseTextAux fuel rest
      else if c = '<' then
        if "b>".data.isPrefixOf rest then parseTextAux fuel (rest.drop 2)
        else if "/b>".data.isPrefixOf rest then parseTextAux fuel (rest.drop 3)
        else '<' :: parseTextAux fuel rest
      else c :: parseTextAux fuel rest

/-- The parsed text of a markup string: the scan with fuel for every
character. -/
def parseText (markup : List Char) : List Char :=
  parseTextAux markup.length markup

/-- The text an element has after `element.innerHTML = markup`.  This is the
behaviour of the browser for markup in which `<` occurs only in the tags `<b>`
and `</b>`, `&` only in `&amp;`, `&lt;`, `&gt;`, before a character that is
neither an ASCII letter, a digit nor `#`, or at the end, and which has no NUL and no
carriage return, assigned to an ordinary container element (a `div`, `p` or
`span`); such markup builds no element that has an id. -/
def htmlText (markup : String) : String :=
  String.mk (parseText markup.data)

/-- A text without any character that the HTML parser treats specially. -/
def isPlainText (text : String) : Bool :=
  text.data.all (fun c => !(List.contains ['<', '&', '\x00', '\r'] c))

/-- What the lightbox script reads and writes of an element.  `content` is the
text of the element, as `textContent` reads it; an assignment to `innerHTML`
replaces it by the text of the parsed markup. -/
structure Element where
  content : String
  src : String
  display : String
  background : String
  deriving DecidableEq, Repr

/-- The document as `document.getElementById` sees it: `none` is `null`. -/
def Document := String → Option Element

/-- The clicked image: its `id` and `src`. -/
structure Image where
  id : String
  src : String
  deriving DecidableEq, Repr

/-- A property write on the element `document.getElementById(id)`: `none` is
the `TypeError` of a write through `null`. -/
def Document.modify (doc : Document) (id : String) (f : Element → Element) :
    Option Document :=
  match doc id with
  | none => none
  | some e => some (fun k => if k = id then some (f e) else doc k)

/-- The function `closeModal` of `lightbox.js`. -/
def closeModal (doc : Document) : Option Document :=
  doc.modify "__lightbox__" (fun e => { e with display := "none" })

/-- The function `openImage` of `lightbox.js`, statement by statement.  The
caption text is assigned to `innerHTML`, so it is parsed as markup; the model
is the behaviour of the script for caption texts in the domain of `htmlText`. -/
def openImage (doc : Document) (image : Image) : Option Document := do
  let captionID := image.id ++ "_caption"
  let caption := doc captionID
  let doc1 ←
    match caption with
    | some c =>
        doc.modify "__lightboxCaption__" (fun e => { e with content := htmlText c.content })
    | none => doc.modify "__lightboxCaption__" (fun e => { e with content := htmlText "" })
  let doc2 ← doc1.modify "__lightboxContent__" (fun e => { e with src := image.src })
  let doc3 ← doc2.modify "__lightbox__" (fun e => { e with display := "block" })
  doc3.modify "__lightbox__" (fun e => { e with background := "white" })

/-- The DOM contract of the lightbox: the modal, its image and its caption
area exist in the document. -/
def HasModal (doc : Document) : Prop :=
  (doc "__lightbox__").isSome ∧ (doc "__lightboxContent__").isSome
    ∧ (doc "__lightboxCaption__").isSome

/-! # Theorems -/

/-! ## The path table after the loader loop -/

theorem plainLoop_append (a b : List ArticleRecord) (st : List String × PathTable) :
    plainLoop (a ++ b) st = plainLoop b (plainLoop a st) := by
  induction a generalizing st with
  | nil => rfl
  | cons r rest ih => obtain ⟨tags, paths⟩ := st; simp [plainLoop, ih]

theorem titlesLoop_append (a b : List ArticleRecord) (st : List Item × PathTable) :
    titlesLoop (a ++ b) st = titlesLoop b (titlesLoop a st) := by
  induction a generalizing st with
  | nil => rfl
  | cons r rest ih => obtain ⟨tags, paths⟩ := st; simp [titlesLoop, ih]

theorem PathTable.set_of_ne (paths : PathTable) (name url k : String) (h : k ≠ name) :
    paths.set name url k = paths k := by
  unfold PathTable.set
  split
  · rfl
  · simp [h]

theorem PathTable.set_self (paths : PathTable) (name url : String)
    (h : name ≠ "__proto__") : paths.set name url name = JSVal.str url := by
  simp [PathTable.set, h]

theorem plainLoop_paths_of_absent (k : String) (data : List ArticleRecord)
    (st : List String × PathTable) (h : ∀ r ∈ data, r.name ≠ k) :
    (plainLoop data st).2 k = st.2 k := by
  induction data generalizing st with
  | nil => rfl
  | cons r rest ih =>
    obtain ⟨tags, paths⟩ := st
    have hr : r.name ≠ k := h r (List.mem_cons_self _ _)
    rw [plainLoop, ih _ (fun q hq => h q (List.mem_cons_of_mem _ hq))]
    exact PathTable.set_of_ne paths r.name r.url k (fun e => hr e.symm)

theorem titlesLoop_paths_of_absent (k : String) (data : List ArticleRecord)
    (st : List Item × PathTable) (h : ∀ r ∈ data, r.name ≠ k) :
    (titlesLoop data st).2 k = st.2 k := by
  induction data generalizing st with
  | nil => rfl
  | cons r rest ih =>
    obtain ⟨tags, paths⟩ := st
    have hr : r.name ≠ k := h r (List.mem_cons_self _ _)
    rw [titlesLoop, ih _ (fun q hq => h q (List.mem_cons_of_mem _ hq))]
    exact PathTable.set_of_ne paths r.name r.url k (fun e => hr e.symm)

theorem plainLoop_paths_of_agree (k u : String) (data : List ArticleRecord)
    (st : List String × PathTable) (hk : k ≠ "__proto__")
    (h : ∀ r ∈ data, r.name = k → r.url = u)
    (hst : st.2 k = JSVal.str u) :
    (plainLoop data st).2 k = JSVal.str u := by
  induction data generalizing st with
  | nil => exact hst
  | cons r rest ih =>
    obtain ⟨tags, paths⟩ := st
    rw [plainLoop]
    apply ih _ (fun q hq => h q (List.mem_cons_of_mem _ hq))
    by_cases hkr : k = r.name
    · show paths.set r.name r.url k = JSVal.str u
      rw [hkr, PathTable.set_self paths r.name r.url (hkr ▸ hk),
        h r (List.mem_cons_self _ _) hkr.symm]
    · show paths.set r.name r.url k = JSVal.str u
      rw [PathTable.set_of_ne paths r.name r.url k hkr]
      exact hst

theorem titlesLoop_paths_of_agree (k u : String) (data : List ArticleRecord)
    (st : List Item × PathTable) (hk : k ≠ "__proto__")
    (h : ∀ r ∈ data, r.name = k → r.url = u)
    (hst : st.2 k = JSVal.str u) :
    (titlesLoop data st).2 k = JSVal.str u := by
  induction data generalizing st with
  | nil => exact hst
  | cons r rest ih =>
    obtain ⟨tags, paths⟩ := st
    rw [titlesLoop]
    apply ih _ (fun q hq => h q (List.mem_cons_of_mem _ hq))
    by_cases hkr : k = r.name
    · show paths.set r.name r.url k = JSVal.str u
      rw [hkr, PathTable.set_self paths r.name r.url (hkr ▸ hk),
        h r (List.mem_cons_self _ _) hkr.symm]
    · show paths.set r.name r.url k = JSVal.str u
      rw [PathTable.set_of_ne paths r.name r.url k hkr]
      exact hst

/-- The entry of a name other than `__proto__` is the url of the last record
that carries it (plain loader). -/
theorem plainLoad_paths_last (pre post : List ArticleRecord) (r : ArticleRecord)
    (hp : r.name ≠ "__proto__") (h : ∀ q ∈ post, q.name ≠ r.name) :
    (plainLoad (pre ++ r :: post)).2 r.name = JSVal.str r.url := by
  unfold plainLoad
  rw [plainLoop_append]
  obtain ⟨tags, paths⟩ := plainLoop pre ([], PathTable.empty)
  rw [plainLoop, plainLoop_paths_of_absent _ _ _ h]
  exact PathTable.set_self paths r.name r.url hp

/-- The entry of a name other than `__proto__` is the url of the last record
that carries it (category-aware loader). -/
theorem titlesLoad_paths_last (pre post : List ArticleRecord) (r : ArticleRecord)
    (hp : r.name ≠ "__proto__") (h : ∀ q ∈ post, q.name ≠ r.name) :
    (titlesLoad (pre ++ r :: post)).2 r.name = JSVal.str r.url := by
  unfold titlesLoad
  rw [titlesLoop_append]
  obtain ⟨tags, paths⟩ := titlesLoop pre ([], PathTable.empty)
  rw [titlesLoop, titlesLoop_paths_of_absent _ _ _ h]
  exact PathTable.set_self paths r.name r.url hp

/-- A name that occurs in a list of records has a last record carrying it. -/
theorem exists_last_named (k : String) (data : List ArticleRecord)
    (h : ∃ r ∈ data, r.name = k) :
    ∃ pre r post, data = pre ++ r :: post ∧ r.name = k ∧ ∀ q ∈ post, q.name ≠ k := by
  induction data with
  | nil => obtain ⟨r, hr, _⟩ := h; cases hr
  | cons x xs ih =>
    by_cases hx : ∃ r ∈ xs, r.name = k
    · obtain ⟨pre, r, post, e, hr, hpost⟩ := ih hx
      exact ⟨x :: pre, r, post, by simp [e], hr, hpost⟩
    · obtain ⟨r, hr, hk⟩ := h
      rcases List.mem_cons.1 hr with e | hmem
      · subst e
        exact ⟨[], r, xs, rfl, hk, fun q hq e => hx ⟨q, hq, e⟩⟩
      · exact absurd ⟨r, hmem, hk⟩ hx

/-! ## Navigation targets -/

/-- C1 (code defect): on a page two levels below the root the `select`
handlers of both variants prefix the path found in the table with `"../.."`,
without the closing slash: for the entry `Home ↦ index.html` the assigned
target is `"../..index.html"`, not `"../../index.html"`. -/
theorem select_depth2_prefix_lacks_slash :
    plainSelect (plainLoad [⟨"Home", "articles", "", "", "index.html"⟩]).2
        (plainDetect "http://host/articles/guide/page.html").2 "Home"
      = some "../..index.html"
    ∧ titlesSelect (titlesLoad [⟨"Home", "articles", "", "", "index.html"⟩]).2
        (titlesDetect "http://host/articles/guide/page.html")
        (mkItem ⟨"Home", "articles", "", "", "index.html"⟩)
      = some "../..index.html" := by
  decide

/-- C2 (code defect): a selected name without an entry reads `undefined` from
the table, which passes the test `path !== null`, so both handlers assign to
`window.location.href`: the plain one assigns `"undefined"`, the
category-aware one `"undefined#install"` for an item with a title. -/
theorem select_missing_entry_navigates :
    (plainLoad [⟨"Home", "articles", "", "", "index.html"⟩]).2 "Zed" = JSVal.undefined
    ∧ plainSelect (plainLoad [⟨"Home", "articles", "", "", "index.html"⟩]).2 0 "Zed"
      = some "undefined"
    ∧ titlesSelect (titlesLoad [⟨"Home", "articles", "", "", "index.html"⟩]).2 0
        ⟨"Zed", "titles", "Install", "install", "Install"⟩
      = some "undefined#install" := by
  decide

/-- C5 (as stated, refuted): in an index where two records share a name, the
first record is in the index, yet resolving its name with an empty title at
depth 0 yields the url of the second one. -/
theorem resolve_depth0_not_own_url :
    ¬ (∀ (data : List ArticleRecord) (R : ArticleRecord), R ∈ data →
        plainSelect (plainLoad data).2 0 R.name = some R.url
        ∧ ∀ item : Item, item.name = R.name → item.title = "" →
            titlesSelect (titlesLoad data).2 0 item = some R.url) := by
  intro h
  have h1 := (h [⟨"A", "articles", "", "", "a.html"⟩, ⟨"A", "titles", "", "", "b.html"⟩]
    ⟨"A", "articles", "", "", "a.html"⟩ (by decide)).1
  revert h1
  decide

/-- C5 (amended): for a record `R` of the index whose name is not `__proto__`
and after which no record carries `R`'s name with another url, resolving `R`'s
name with an empty title at depth 0 assigns exactly `R.url`, in the plain and
in the category-aware variant. -/
theorem resolve_depth0_own_url (pre post : List ArticleRecord) (R : ArticleRecord)
    (hproto : R.name ≠ "__proto__")
    (h : ∀ q ∈ post, q.name = R.name → q.url = R.url) :
    plainSelect (plainLoad (pre ++ R :: post)).2 0 R.name = some R.url
    ∧ ∀ item : Item, item.name = R.name → item.title = "" →
        titlesSelect (titlesLoad (pre ++ R :: post)).2 0 item = some R.url := by
  have hp : (plainLoad (pre ++ R :: post)).2 R.name = JSVal.str R.url := by
    unfold plainLoad
    rw [plainLoop_append]
    obtain ⟨tags, paths⟩ := plainLoop pre ([], PathTable.empty)
    rw [plainLoop]
    exact plainLoop_paths_of_agree _ _ _ _ hproto h (PathTable.set_self paths R.name R.url hproto)
  have ht : (titlesLoad (pre ++ R :: post)).2 R.name = JSVal.str R.url := by
    unfold titlesLoad
    rw [titlesLoop_append]
    obtain ⟨tags, paths⟩ := titlesLoop pre ([], PathTable.empty)
    rw [titlesLoop]
    exact titlesLoop_paths_of_agree _ _ _ _ hproto h
      (PathTable.set_self paths R.name R.url hproto)
  refine ⟨?_, ?_⟩
  · simp [plainSelect, hp, navigate, JSVal.toStr]
  · intro item hn htitle
    simp [titlesSelect, hn, ht, htitle, withFragment, navigate, JSVal.toStr]

theorem resolve_depth0_own_url_witness :
    plainSelect (plainLoad ([⟨"Home", "articles", "", "", "index.html"⟩]
        ++ ⟨"Algorithm", "articles", "", "", "articles/algorithm.html"⟩
        :: [⟨"Algorithm", "titles", "Steps", "steps", "articles/algorithm.html"⟩])).2 0
        "Algorithm" = some "articles/algorithm.html"
    ∧ titlesSelect (titlesLoad ([⟨"Home", "articles", "", "", "index.html"⟩]
          ++ ⟨"Algorithm", "articles", "", "", "articles/algorithm.html"⟩
          :: [⟨"Algorithm", "titles", "Steps", "steps", "articles/algorithm.html"⟩])).2 0
          ⟨"Algorithm", "articles", "", "", "Algorithm"⟩ = some "articles/algorithm.html" :=
  have h := resolve_depth0_own_url [⟨"Home", "articles", "", "", "index.html"⟩]
    [⟨"Algorithm", "titles", "Steps", "steps", "articles/algorithm.html"⟩]
    ⟨"Algorithm", "articles", "", "", "articles/algorithm.html"⟩
    (by decide) (by intro q hq _; simp at hq; rw [hq])
  ⟨h.1, h.2 ⟨"Algorithm", "articles", "", "", "Algorithm"⟩ rfl rfl⟩

/-- C6: in the category-aware `select` handler, when the table holds the base
url `u` for the item's name, the path before depth prefixing is
`u + "#" + titleID` for a non-empty title and exactly `u` for the empty title,
and that path is what the handler prefixes and assigns. -/
theorem titlesSelect_fragment (paths : PathTable) (level : Nat) (item : Item) (u : String)
    (h : paths item.name = JSVal.str u) :
    (item.title ≠ "" →
      withFragment (paths item.name) item.title item.titleID
        = JSVal.str (u ++ "#" ++ item.titleID))
    ∧ (item.title = "" →
      withFragment (paths item.name) item.title item.titleID = JSVal.str u)
    ∧ titlesSelect paths level item
        = some (navigate level (withFragment (paths item.name) item.title item.titleID)) := by
  refine ⟨?_, ?_, ?_⟩
  · intro ht
    simp [withFragment, ht, h, JSVal.toStr]
  · intro ht
    simp [withFragment, ht, h]
  · simp [titlesSelect, h]

theorem titlesSelect_fragment_witness :
    titlesSelect
      (titlesLoad [⟨"Algorithm", "titles", "Steps", "steps", "articles/algorithm.html"⟩]).2 0
      (mkItem ⟨"Algorithm", "titles", "Steps", "steps", "articles/algorithm.html"⟩)
      = some "articles/algorithm.html#steps" := by
  have h := (titlesSelect_fragment
    (titlesLoad [⟨"Algorithm", "titles", "Steps", "steps", "articles/algorithm.html"⟩]).2 0
    (mkItem ⟨"Algorithm", "titles", "Steps", "steps", "articles/algorithm.html"⟩)
    "articles/algorithm.html" (by decide)).2.2
  rw [h]
  decide

/-- After the loader loop, for every name other than `__proto__` that occurs
in the list of records, the table entry of that name is the url of the last
record carrying the name, in the plain and in the category-aware variant. -/
theorem paths_last_write_wins (data : List ArticleRecord) (name : String)
    (hproto : name ≠ "__proto__") (h : ∃ r ∈ data, r.name = name) :
    ∃ pre r post, data = pre ++ r :: post ∧ r.name = name
      ∧ (∀ q ∈ post, q.name ≠ name)
      ∧ (plainLoad data).2 name = JSVal.str r.url
      ∧ (titlesLoad data).2 name = JSVal.str r.url := by
  obtain ⟨pre, r, post, e, hname, hlast⟩ := exists_last_named name data h
  have hp : r.name ≠ "__proto__" := by rw [hname]; exact hproto
  refine ⟨pre, r, post, e, hname, hlast, ?_, ?_⟩
  · rw [e, ← hname]
    exact plainLoad_paths_last pre post r hp (fun q hq => by rw [hname]; exact hlast q hq)
  · rw [e, ← hname]
    exact titlesLoad_paths_last pre post r hp (fun q hq => by rw [hname]; exact hlast q hq)

theorem paths_last_write_wins_witness :
    ∃ pre r post,
      [(⟨"A", "articles", "", "", "a.html"⟩ : ArticleRecord), ⟨"A", "titles", "T", "t", "b.html"⟩]
        = pre ++ r :: post ∧ r.name = "A"
      ∧ (∀ q ∈ post, q.name ≠ "A")
      ∧ (plainLoad [⟨"A", "articles", "", "", "a.html"⟩, ⟨"A", "titles", "T", "t", "b.html"⟩]).2 "A"
          = JSVal.str r.url
      ∧ (titlesLoad [⟨"A", "articles", "", "", "a.html"⟩, ⟨"A", "titles", "T", "t", "b.html"⟩]).2 "A"
          = JSVal.str r.url :=
  paths_last_write_wins [⟨"A", "articles", "", "", "a.html"⟩, ⟨"A", "titles", "T", "t", "b.html"⟩]
    "A" (by decide) ⟨⟨"A", "articles", "", "", "a.html"⟩, by simp, rfl⟩

/-- C7 (code defect): for a record named `__proto__` the assignment
`paths[name] = url` of both loader loops stores nothing: after the loop the
read of `paths["__proto__"]` still yields `Object.prototype`, not the url
`p.html` of the record, and selecting that name at depth 0 assigns
`"[object Object]"`. -/
theorem loader_drops_proto_entry :
    (plainLoad [⟨"__proto__", "articles", "", "", "p.html"⟩]).2 "__proto__"
      = JSVal.objectPrototype
    ∧ (titlesLoad [⟨"__proto__", "articles", "", "", "p.html"⟩]).2 "__proto__"
      = JSVal.objectPrototype
    ∧ plainSelect (plainLoad [⟨"__proto__", "articles", "", "", "p.html"⟩]).2 0 "__proto__"
      = some "[object Object]"
    ∧ titlesSelect (titlesLoad [⟨"__proto__", "articles", "", "", "p.html"⟩]).2 0
        (mkItem ⟨"__proto__", "articles", "", "", "p.html"⟩)
      = some "[object Object]" := by
  decide

/-! ## Depth detection -/

theorem splitChars_ne_nil (sep : Char) (s : List Char) : splitChars sep s ≠ [] := by
  induction s with
  | nil => simp [splitChars]
  | cons c cs ih =>
    rw [splitChars]
    split_ifs
    · simp
    · split <;> simp

theorem splitChars_of_not_mem (sep : Char) (x : List Char) (h : sep ∉ x) :
    splitChars sep x = [x] := by
  induction x with
  | nil => rfl
  | cons c cs ih =>
    have hc : c ≠ sep := fun e => h (by simp [e])
    have hcs : sep ∉ cs := fun e => h (List.mem_cons_of_mem _ e)
    rw [splitChars, if_neg hc, ih hcs]

theorem splitChars_append_sep (sep : Char) (a b : List Char) :
    splitChars sep (a ++ sep :: b) = splitChars sep a ++ splitChars sep b := by
  induction a with
  | nil => simp [splitChars]
  | cons c cs ih =>
    by_cases hc : c = sep
    · simp [splitChars, hc, ih]
    · have hne := splitChars_ne_nil sep cs
      rw [List.cons_append, splitChars, if_neg hc, ih, splitChars, if_neg hc]
      cases hsp : splitChars sep cs with
      | nil => exact absurd hsp hne
      | cons seg segs => simp

/-- A sequence that contains the separator splits at its last occurrence. -/
theorem exists_last_sep (sep : Char) (s : List Char) (h : sep ∈ s) :
    ∃ p x, s = p ++ sep :: x ∧ sep ∉ x := by
  induction s with
  | nil => cases h
  | cons c cs ih =>
    by_cases hcs : sep ∈ cs
    · obtain ⟨p, x, e, hx⟩ := ih hcs
      exact ⟨c :: p, x, by simp [e], hx⟩
    · rcases List.mem_cons.1 h with e | hmem
      · exact ⟨[], cs, by simp [e], hcs⟩
      · exact absurd hmem hcs

theorem splitChars_snoc (sep : Char) (s : List Char) (h : sep ∈ s) :
    ∃ p x, s = p ++ sep :: x ∧ sep ∉ x ∧ splitChars sep s = splitChars sep p ++ [x] := by
  obtain ⟨p, x, e, hx⟩ := exists_last_sep sep s h
  exact ⟨p, x, e, hx, by rw [e, splitChars_append_sep, splitChars_of_not_mem sep x hx]⟩

theorem two_le_length_splitChars (sep : Char) (s : List Char) (h : sep ∈ s) :
    2 ≤ (splitChars sep s).length := by
  obtain ⟨p, x, _, _, e⟩ := splitChars_snoc sep s h
  have hp : (splitChars sep p).length ≠ 0 := fun e0 =>
    splitChars_ne_nil sep p (List.length_eq_zero.1 e0)
  rw [e, List.length_append, List.length_singleton]
  omega


theorem getElem?_snoc3_a (f : List String) (a b c : String) :
    (f ++ [a, b, c])[(f ++ [a, b, c]).length - 2]? = some b := by
  have e : (f ++ [a, b, c]).length - 2 = f.length + 1 := by simp
  rw [e, List.getElem?_append_right (by omega)]
  simp

theorem getElem?_snoc3_b (f : List String) (a b c : String) :
    (f ++ [a, b, c])[(f ++ [a, b, c]).length - 3]? = some a := by
  have e : (f ++ [a, b, c]).length - 3 = f.length := by simp
  rw [e, List.getElem?_append_right (by omega)]
  simp

theorem titlesDetect_short (loc : String) (h : (jsSplit loc).length ≤ 3) :
    titlesDetect loc = 0 := by
  unfold titlesDetect
  simp only []
  rw [if_neg (by omega)]

theorem titlesDetect_of_snoc3 (loc : String) (f : List String) (x3 x2 x1 : String)
    (h : jsSplit loc = f ++ [x3, x2, x1]) (hf : 1 ≤ f.length) :
    titlesDetect loc =
      if x2 = "articles" then 1
      else if 2 ≤ f.length ∧ x3 = "articles" then 2 else 0 := by
  unfold titlesDetect
  simp only [h, getElem?_snoc3_a, getElem?_snoc3_b]
  have hl : (f ++ [x3, x2, x1]).length = f.length + 3 := by simp
  rw [hl, if_pos (by omega)]
  simp only [Option.some.injEq]
  have e : (f.length + 3 > 4) ↔ (2 ≤ f.length) := by omega
  simp only [e]

theorem jsSplit_shape1 (P X : String) (hX : '/' ∉ X.data) :
    jsSplit (P ++ "/articles/" ++ X) = jsSplit P ++ ["articles", X] := by
  have e : (P ++ "/articles/" ++ X).data
      = P.data ++ '/' :: ("articles".data ++ '/' :: X.data) := by
    simp [String.data_append]
  unfold jsSplit
  rw [e, splitChars_append_sep, splitChars_append_sep,
    splitChars_of_not_mem _ _ hX, splitChars_of_not_mem _ "articles".data (by decide)]
  simp

theorem jsSplit_shape2 (P Y Z : String) (hY : '/' ∉ Y.data) (hZ : '/' ∉ Z.data) :
    jsSplit (P ++ "/articles/" ++ Y ++ "/" ++ Z) = jsSplit P ++ ["articles", Y, Z] := by
  have e : (P ++ "/articles/" ++ Y ++ "/" ++ Z).data
      = P.data ++ '/' :: ("articles".data ++ '/' :: (Y.data ++ '/' :: Z.data)) := by
    simp [String.data_append]
  unfold jsSplit
  rw [e, splitChars_append_sep, splitChars_append_sep, splitChars_append_sep,
    splitChars_of_not_mem _ _ hY, splitChars_of_not_mem _ _ hZ,
    splitChars_of_not_mem _ "articles".data (by decide)]
  simp

theorem two_le_length_jsSplit (P : String) (h : '/' ∈ P.data) : 2 ≤ (jsSplit P).length := by
  unfold jsSplit
  rw [List.length_map]
  exact two_le_length_splitChars _ _ h

theorem jsSplit_length_of_not_mem (P : String) (h : '/' ∉ P.data) : (jsSplit P).length = 1 := by
  unfold jsSplit
  rw [splitChars_of_not_mem _ _ h]
  rfl

/-- A location with a slash: the last segment and what precedes it. -/
theorem jsSplit_snoc (loc : String) (h : '/' ∈ loc.data) :
    ∃ P X : String, loc = P ++ "/" ++ X ∧ '/' ∉ X.data ∧ jsSplit loc = jsSplit P ++ [X] := by
  obtain ⟨p, x, e, hx, hs⟩ := splitChars_snoc '/' loc.data h
  refine ⟨String.mk p, String.mk x, ?_, hx, ?_⟩
  · apply String.ext
    simp [String.data_append, e]
  · unfold jsSplit
    rw [hs]
    simp

/-- Either the level is 0, or the location ends in three slash-separated
segments and the level is decided by the last but one and the one before. -/
theorem titlesDetect_view (loc : String) :
    titlesDetect loc = 0 ∨
    ∃ P X3 X2 X1 : String, loc = P ++ "/" ++ X3 ++ "/" ++ X2 ++ "/" ++ X1
      ∧ '/' ∉ X3.data ∧ '/' ∉ X2.data ∧ '/' ∉ X1.data
      ∧ titlesDetect loc =
          if X2 = "articles" then 1
          else if '/' ∈ P.data ∧ X3 = "articles" then 2 else 0 := by
  by_cases h1 : '/' ∈ loc.data
  swap
  · exact Or.inl (titlesDetect_short loc (by rw [jsSplit_length_of_not_mem loc h1]; omega))
  obtain ⟨P1, X1, e1, hX1, hs1⟩ := jsSplit_snoc loc h1
  by_cases h2 : '/' ∈ P1.data
  swap
  · refine Or.inl (titlesDetect_short loc ?_)
    rw [hs1, List.length_append, jsSplit_length_of_not_mem P1 h2]
    simp
  obtain ⟨P2, X2, e2, hX2, hs2⟩ := jsSplit_snoc P1 h2
  by_cases h3 : '/' ∈ P2.data
  swap
  · refine Or.inl (titlesDetect_short loc ?_)
    rw [hs1, hs2, List.length_append, List.length_append, jsSplit_length_of_not_mem P2 h3]
    simp
  obtain ⟨P3, X3, e3, hX3, hs3⟩ := jsSplit_snoc P2 h3
  refine Or.inr ⟨P3, X3, X2, X1, by rw [e1, e2, e3], hX3, hX2, hX1, ?_⟩
  have hs : jsSplit loc = jsSplit P3 ++ [X3, X2, X1] := by
    rw [hs1, hs2, hs3]; simp
  have hne : 1 ≤ (jsSplit P3).length := by
    unfold jsSplit
    rw [List.length_map]
    have := splitChars_ne_nil '/' P3.data
    have h0 : (splitChars '/' P3.data).length ≠ 0 := fun e0 => this (List.length_eq_zero.1 e0)
    omega
  rw [titlesDetect_of_snoc3 loc _ _ _ _ hs hne]
  have hiff : 2 ≤ (jsSplit P3).length ↔ '/' ∈ P3.data := by
    constructor
    · intro h
      by_contra hn
      rw [jsSplit_length_of_not_mem P3 hn] at h
      omega
    · exact two_le_length_jsSplit P3
  simp only [hiff]

theorem plainDetect_level (loc : String) : (plainDetect loc).2 = titlesDetect loc := by
  unfold plainDetect titlesDetect
  simp only []
  split_ifs <;> rfl

/-- C4 (as stated, refuted): the location `http://host/articles/articles/X`
has an `articles` segment followed by exactly two further segments, and the
detected depth is 1, not 2. -/
theorem detect_shape2_not_depth2 :
    ¬ (∀ loc P Y Z : String, loc = P ++ "/articles/" ++ Y ++ "/" ++ Z →
        '/' ∉ Y.data → '/' ∉ Z.data →
        titlesDetect loc = 2 ∧ (plainDetect loc).2 = 2) := by
  intro h
  have h1 := (h "http://host/articles/articles/X" "http://host" "articles" "X"
    (by decide) (by decide) (by decide)).1
  revert h1
  decide

/-- C4 (amended): the detected depth is 1 exactly for the locations
`P/articles/X`, and 2 exactly for the locations `P/articles/Y/Z` with `Y`
other than `articles`, where `X`, `Y`, `Z` contain no slash and `P` contains
one (as the `scheme://host` part of every absolute location does); it is 0
for every other location.  Both scripts detect the same depth, and the three
sample locations give 1, 2 and 0. -/
theorem detect_depth_by_shape (loc : String) :
    (titlesDetect loc = 1 ↔
      ∃ P X : String, loc = P ++ "/articles/" ++ X ∧ '/' ∈ P.data ∧ '/' ∉ X.data)
    ∧ (titlesDetect loc = 2 ↔
      ∃ P Y Z : String, loc = P ++ "/articles/" ++ Y ++ "/" ++ Z ∧ '/' ∈ P.data
        ∧ '/' ∉ Y.data ∧ '/' ∉ Z.data ∧ Y ≠ "articles")
    ∧ (titlesDetect loc = 0 ∨ titlesDetect loc = 1 ∨ titlesDetect loc = 2)
    ∧ (plainDetect loc).2 = titlesDetect loc
    ∧ titlesDetect "http://host/articles/X" = 1
    ∧ titlesDetect "http://host/articles/Y/Z" = 2
    ∧ titlesDetect "http://host/index.html" = 0 := by
  refine ⟨⟨?_, ?_⟩, ⟨?_, ?_⟩, ?_, plainDetect_level loc, by decide, by decide, by decide⟩
  · intro h
    rcases titlesDetect_view loc with h0 | ⟨P, X3, X2, X1, e, h3, h2, h1, hd⟩
    · rw [h0] at h; cases h
    · rw [hd] at h
      by_cases hx : X2 = "articles"
      · refine ⟨P ++ "/" ++ X3, X1, ?_, ?_, h1⟩
        · rw [e, hx]
          apply String.ext
          simp [String.data_append]
        · simp [String.data_append]
      · rw [if_neg hx] at h
        split_ifs at h
        cases h
  · rintro ⟨P, X, e, hP, hX⟩
    have hs := jsSplit_shape1 P X hX
    rw [← e] at hs
    obtain ⟨f, x3, hf⟩ : ∃ f x3, jsSplit P = f ++ [x3] := by
      have h2 := two_le_length_jsSplit P hP
      rcases List.eq_nil_or_concat (jsSplit P) with h0 | ⟨f, x3, hf⟩
      · rw [h0] at h2; simp at h2
      · exact ⟨f, x3, by simpa using hf⟩
    have hfl : 1 ≤ f.length := by
      have h2 := two_le_length_jsSplit P hP
      rw [hf, List.length_append, List.length_singleton] at h2
      omega
    rw [titlesDetect_of_snoc3 loc f x3 "articles" X (by rw [hs, hf]; simp) hfl]
    simp
  · intro h
    rcases titlesDetect_view loc with h0 | ⟨P, X3, X2, X1, e, h3, h2, h1, hd⟩
    · rw [h0] at h; cases h
    · rw [hd] at h
      by_cases hx : X2 = "articles"
      · rw [if_pos hx] at h; cases h
      · rw [if_neg hx] at h
        by_cases hc : '/' ∈ P.data ∧ X3 = "articles"
        · refine ⟨P, X2, X1, ?_, hc.1, h2, h1, hx⟩
          rw [e, hc.2]
          apply String.ext
          simp [String.data_append]
        · rw [if_neg hc] at h; cases h
  · rintro ⟨P, Y, Z, e, hP, hY, hZ, hne⟩
    have hs := jsSplit_shape2 P Y Z hY hZ
    rw [← e] at hs
    have h2 := two_le_length_jsSplit P hP
    rw [titlesDetect_of_snoc3 loc (jsSplit P) "articles" Y Z hs (by omega)]
    simp [hne, h2]
  · unfold titlesDetect
    simp only []
    split_ifs <;> simp


/-! ## Highlighting -/

theorem replaceAux_fuel (mask : List Char) (f1 f2 : Nat) (s : List Char)
    (h1 : s.length < f1) (h2 : s.length < f2) :
    replaceAux mask f1 s = replaceAux mask f2 s := by
  induction f1 generalizing f2 s with
  | zero => omega
  | succ n ih =>
    cases f2 with
    | zero => omega
    | succ k =>
      cases s with
      | nil => rfl
      | cons c cs =>
        have hc1 : cs.length < n := by simpa using h1
        have hc2 : cs.length < k := by simpa using h2
        simp only [replaceAux]
        rw [ih k cs hc1 hc2]
        by_cases hm : mask = []
        · simp [hm]
        · by_cases hmt : matchesAt mask (c :: cs) = true
          · simp only [hmt, if_true, if_neg hm]
            cases mask with
            | nil => exact absurd rfl hm
            | cons m ms =>
              have hd1' : (cs.drop ms.length).length < n := by
                rw [List.length_drop]; omega
              have hd2' : (cs.drop ms.length).length < k := by
                rw [List.length_drop]; omega
              simp only [List.length_cons, List.drop_succ_cons]
              rw [ih k _ hd1' hd2']
          · simp [hmt]

theorem matchesAt_iff (mask s : List Char) :
    matchesAt mask s = true ↔ ∃ b c, s = b ++ c ∧ b.map canon = mask.map canon := by
  induction mask generalizing s with
  | nil =>
    simp only [matchesAt, List.map_nil, true_iff]
    exact ⟨[], s, rfl, rfl⟩
  | cons m ms ih =>
    cases s with
    | nil =>
      simp only [matchesAt, Bool.false_eq_true, false_iff]
      rintro ⟨b, c, e, hb⟩
      have : b = [] := by
        cases b with
        | nil => rfl
        | cons x xs => simp at e
      rw [this] at hb
      simp at hb
    | cons x xs =>
      simp only [matchesAt, Bool.and_eq_true, beq_iff_eq, ih]
      constructor
      · rintro ⟨hx, b, c, e, hb⟩
        exact ⟨x :: b, c, by simp [e], by simp [hb, hx]⟩
      · rintro ⟨b, c, e, hb⟩
        cases b with
        | nil => simp at hb
        | cons y ys =>
          simp only [List.cons_append, List.cons.injEq] at e
          simp only [List.map_cons, List.cons.injEq] at hb
          exact ⟨by rw [e.1, hb.1], ys, c, e.2, hb.2⟩

theorem replaceAux_cons_of_no_match (mask : List Char) (c : Char) (cs : List Char)
    (h : matchesAt mask (c :: cs) = false) :
    replaceAux mask ((c :: cs).length + 1) (c :: cs)
      = c :: replaceAux mask (cs.length + 1) cs := by
  simp [replaceAux, h]

theorem replaceAux_of_match (mask m rest : List Char) (hne : mask ≠ [])
    (hm : m.map canon = mask.map canon) :
    replaceAux mask ((m ++ rest).length + 1) (m ++ rest)
      = emph m ++ replaceAux mask (rest.length + 1) rest := by
  have hlen : m.length = mask.length := by
    have := congrArg List.length hm
    simpa using this
  cases m with
  | nil =>
    exfalso
    apply hne
    apply List.length_eq_zero.1
    rw [← hlen]; rfl
  | cons x xs =>
    have hmt : matchesAt mask (x :: (xs ++ rest)) = true :=
      (matchesAt_iff mask _).2 ⟨x :: xs, rest, rfl, hm⟩
    have ht : List.take mask.length (x :: (xs ++ rest)) = x :: xs := by
      rw [← List.cons_append]; exact List.take_left' hlen
    have hd : List.drop mask.length (x :: (xs ++ rest)) = rest := by
      rw [← List.cons_append]; exact List.drop_left' hlen
    have hfuel : replaceAux mask ((xs ++ rest).length + 1) rest
        = replaceAux mask (rest.length + 1) rest :=
      replaceAux_fuel mask _ _ rest (by simp; omega) (by omega)
    show replaceAux mask ((xs ++ rest).length + 1 + 1) (x :: (xs ++ rest)) = _
    rw [replaceAux, if_pos hmt, if_neg hne, ht, hd, hfuel]

/-- The scan up to and including the first occurrence of the pattern. -/
theorem replaceAux_first (mask pre m rest : List Char) (hne : mask ≠ [])
    (hm : m.map canon = mask.map canon)
    (hfirst : ∀ a b c : List Char, pre ++ m ++ rest = a ++ b ++ c →
      b.map canon = mask.map canon → pre.length ≤ a.length) :
    replaceAux mask ((pre ++ m ++ rest).length + 1) (pre ++ m ++ rest)
      = pre ++ emph m ++ replaceAux mask (rest.length + 1) rest := by
  induction pre with
  | nil =>
    simp only [List.nil_append]
    exact replaceAux_of_match mask m rest hne hm
  | cons p ps ih =>
    have hno : matchesAt mask (p :: (ps ++ m ++ rest)) = false := by
      cases hmt : matchesAt mask (p :: (ps ++ m ++ rest)) with
      | false => rfl
      | true =>
        obtain ⟨b, c, e, hb⟩ := (matchesAt_iff mask _).1 hmt
        have := hfirst [] b c (by simpa using e) hb
        simp at this
    have ih' := ih (fun a b c e hb => by
      have := hfirst (p :: a) b c (by simp [e]) hb
      simpa using this)
    have e1 : p :: ps ++ m ++ rest = p :: (ps ++ m ++ rest) := by simp
    rw [e1, replaceAux_cons_of_no_match mask p _ hno, ih']
    simp

/-- A subject without occurrence of the pattern is returned unchanged. -/
theorem replaceAux_of_no_occurrence (mask s : List Char) (hne : mask ≠ [])
    (hno : ∀ a b c : List Char, s = a ++ b ++ c → b.map canon ≠ mask.map canon) :
    replaceAux mask (s.length + 1) s = s := by
  induction s with
  | nil => simp [replaceAux, hne]
  | cons p ps ih =>
    have hnm : matchesAt mask (p :: ps) = false := by
      cases hmt : matchesAt mask (p :: ps) with
      | false => rfl
      | true =>
        obtain ⟨b, c, e, hb⟩ := (matchesAt_iff mask _).1 hmt
        exact absurd hb (hno [] b c (by simpa using e))
    rw [replaceAux_cons_of_no_match mask p ps hnm,
      ih (fun a b c e hb => hno (p :: a) b c (by simp [e]) hb)]

theorem data_ne_nil_of_ne_empty (mask : String) (hne : mask ≠ "") : mask.data ≠ [] := by
  intro h
  apply hne
  apply String.ext
  rw [h]

theorem jsReplace_of_no_occurrence (mask label : String) (hne : mask ≠ "")
    (hno : ∀ a b c : String, label = a ++ b ++ c →
      b.data.map canon ≠ mask.data.map canon) :
    jsReplace mask label = label := by
  unfold jsReplace
  apply String.ext
  show replaceAux mask.data (label.data.length + 1) label.data = label.data
  apply replaceAux_of_no_occurrence _ _ (data_ne_nil_of_ne_empty mask hne)
  intro a b c e hb
  exact hno (String.mk a) (String.mk b) (String.mk c)
    (by apply String.ext; simp [String.data_append, e]) hb

theorem jsReplace_first (mask label pre m rest : String) (hne : mask ≠ "")
    (e : label = pre ++ m ++ rest)
    (hm : m.data.map canon = mask.data.map canon)
    (hfirst : ∀ a b c : String, label = a ++ b ++ c →
      b.data.map canon = mask.data.map canon → pre.length ≤ a.length) :
    jsReplace mask label = pre ++ emphOpen ++ m ++ emphClose ++ jsReplace mask rest := by
  have hd : label.data = pre.data ++ m.data ++ rest.data := by
    rw [e]; simp [String.data_append]
  have key := replaceAux_first mask.data pre.data m.data rest.data
    (data_ne_nil_of_ne_empty mask hne) hm (fun a b c eabc hb => by
      have := hfirst (String.mk a) (String.mk b) (String.mk c)
        (by apply String.ext; rw [hd, eabc]; simp [String.data_append]) hb
      exact this)
  unfold jsReplace
  apply String.ext
  show replaceAux mask.data (label.data.length + 1) label.data = _
  rw [hd, key]
  simp only [String.data_append, emph, List.append_assoc]
  rfl

/-- C3 (as stated, refuted): for the label `aa` and the search text `a` the
first occurrence is the first character, and the html is not the label with
only that occurrence wrapped: the second `a` is wrapped as well. -/
theorem renderItem_not_first_only :
    ¬ (∀ mask label pre m rest : String, mask ≠ "" → isLiteral mask = true →
        label = pre ++ m ++ rest →
        m.data.map canon = mask.data.map canon →
        (∀ a b c : String, label = a ++ b ++ c →
          b.data.map canon = mask.data.map canon → pre.length ≤ a.length) →
        plainRenderItem mask label = pre ++ emphOpen ++ m ++ emphClose ++ rest) := by
  intro h
  have h1 := h "a" "aa" "" "a" "a" (by decide) (by decide) (by decide) (by decide)
    (fun a _ _ _ _ => Nat.zero_le a.length)
  revert h1
  decide

/-- C3 (amended): for a non-empty search text of literal characters, the html
of `_renderItem` in `search.js` is the label with every case-insensitive
occurrence of the search text, taken from left to right without overlap,
wrapped in the emphasis markup: a label without occurrence is returned
unchanged; otherwise the html is the part of the label before its first
occurrence, unchanged, that occurrence inside the markup, and the rendering of
the rest of the label.  `_renderItem` of `searchOnTitles.js` renders the name
in that way for the category `articles`, the title after the prefix
`<i>name</i> : ` for the category `titles`, and gives the label as it is for
any other category. -/
theorem renderItem_wraps_each_occurrence (mask label : String) (hne : mask ≠ "")
    (_hlit : isLiteral mask = true) :
    ((∀ a b c : String, label = a ++ b ++ c → b.data.map canon ≠ mask.data.map canon) →
      plainRenderItem mask label = label)
    ∧ (∀ pre m rest : String, label = pre ++ m ++ rest →
        m.data.map canon = mask.data.map canon →
        (∀ a b c : String, label = a ++ b ++ c →
          b.data.map canon = mask.data.map canon → pre.length ≤ a.length) →
        plainRenderItem mask label
          = pre ++ emphOpen ++ m ++ emphClose ++ plainRenderItem mask rest)
    ∧ (∀ item : Item, titlesRenderItem mask item =
        if item.category = "articles" then plainRenderItem mask item.name
        else if item.category = "titles" then
          "<i>" ++ item.name ++ "</i> : " ++ plainRenderItem mask item.title
        else item.label) :=
  ⟨jsReplace_of_no_occurrence mask label hne,
   fun pre m rest e hm hfirst => jsReplace_first mask label pre m rest hne e hm hfirst,
   fun _ => rfl⟩

theorem renderItem_wraps_each_occurrence_witness :
    plainRenderItem "a" "Analysis"
      = "" ++ emphOpen ++ "A" ++ emphClose ++ plainRenderItem "a" "nalysis"
    ∧ plainRenderItem "a" "nalysis"
      = "n" ++ emphOpen ++ "a" ++ emphClose ++ "lysis" :=
  ⟨(renderItem_wraps_each_occurrence "a" "Analysis" (by decide) (by decide)).2.1
      "" "A" "nalysis" (by decide) (by decide) (fun a _ _ _ _ => Nat.zero_le a.length),
   by decide⟩

/-! ## Category headers of the menu -/

theorem Contiguous.tail (x : String) (l : List String) (h : Contiguous (x :: l)) :
    Contiguous l := by
  intro i j k c hij hjk hi hk
  have := h (i + 1) (j + 1) (k + 1) c (by omega) (by omega) (by simpa using hi)
    (by simpa using hk)
  simpa using this

theorem Contiguous.not_mem (a b : String) (l : List String) (h : Contiguous (a :: b :: l))
    (hab : b ≠ a) : a ∉ l := by
  intro hmem
  obtain ⟨k, hk⟩ := List.mem_iff_getElem?.1 hmem
  have := h 0 1 (k + 2) a (by omega) (by omega) (by simp) (by simpa using hk)
  simp at this
  exact hab this

theorem Contiguous.cons_of_not_mem (a : String) (l : List String) (h : Contiguous l)
    (ha : a ∉ l) : Contiguous (a :: l) := by
  intro i j k c hij hjk hi hk
  cases k with
  | zero => omega
  | succ k =>
    cases j with
    | zero => omega
    | succ j =>
      cases i with
      | zero =>
        exfalso
        simp only [List.getElem?_cons_zero, Option.some.injEq] at hi
        simp only [List.getElem?_cons_succ] at hk
        rw [← hi] at hk
        exact ha (List.mem_iff_getElem?.2 ⟨k, hk⟩)
      | succ i =>
        simp only [List.getElem?_cons_succ] at hi hk ⊢
        exact h i j k c (by omega) (by omega) hi hk

/-- The number of header rows of a category emitted by the loop, when the
current category followed by the categories of the items is contiguous. -/
theorem count_category_renderMenuFrom (cur : String) (items : List Item)
    (h : Contiguous (cur :: items.map (fun it => it.category))) (c : String) :
    (renderMenuFrom cur items).count (Row.category c)
      = if c ≠ cur ∧ c ∈ items.map (fun it => it.category) then 1 else 0 := by
  induction items generalizing cur with
  | nil => simp [renderMenuFrom]
  | cons it rest ih =>
    have hrow : Row.category c ≠ itemRow it := by simp [itemRow]
    by_cases hcur : it.category = cur
    · have h' : Contiguous (cur :: rest.map (fun it => it.category)) := by
        have := Contiguous.tail _ _ h
        simpa [hcur] using this
      rw [renderMenuFrom, if_neg (by simp [hcur]), List.count_cons_of_ne hrow, ih cur h']
      by_cases hc : c = cur
      · simp [hc]
      · simp [hc, hcur]
    · have h' : Contiguous (it.category :: rest.map (fun it => it.category)) := by
        have := Contiguous.tail _ _ h
        simpa using this
      have hnot : cur ∉ rest.map (fun it => it.category) :=
        Contiguous.not_mem cur it.category _ (by simpa using h) hcur
      rw [renderMenuFrom, if_pos hcur, List.count_cons, List.count_cons_of_ne hrow,
        ih it.category h']
      by_cases hc : c = it.category
      · subst hc
        simp [hcur]
      · have hc' : ¬ it.category = c := fun e => hc e.symm
        by_cases hcc : c = cur
        · subst hcc
          simp [hc, hc', hnot]
        · simp [hc, hc', hcc]

/-- The loop on a concatenation: the second part is processed from the
current category the first part leaves, which is the initial one or the
category of an item of the first part. -/
theorem renderMenuFrom_append (cur : String) (a b : List Item) :
    ∃ cur', (cur' = cur ∨ ∃ q ∈ a, q.category = cur')
      ∧ renderMenuFrom cur (a ++ b) = renderMenuFrom cur a ++ renderMenuFrom cur' b := by
  induction a generalizing cur with
  | nil => exact ⟨cur, Or.inl rfl, rfl⟩
  | cons it rest ih =>
    by_cases hcur : it.category = cur
    · obtain ⟨cur', hc, e⟩ := ih cur
      refine ⟨cur', ?_, ?_⟩
      · rcases hc with hc | ⟨q, hq, hqc⟩
        · exact Or.inl hc
        · exact Or.inr ⟨q, List.mem_cons_of_mem _ hq, hqc⟩
      · simp [renderMenuFrom, hcur, e]
    · obtain ⟨cur', hc, e⟩ := ih it.category
      refine ⟨cur', ?_, ?_⟩
      · rcases hc with hc | ⟨q, hq, hqc⟩
        · exact Or.inr ⟨it, List.mem_cons_self _ _, hc.symm⟩
        · exact Or.inr ⟨q, List.mem_cons_of_mem _ hq, hqc⟩
      · simp [renderMenuFrom, hcur, e]

/-- C8: for a list of items with non-empty categories in which equal
categories are contiguous, `_renderMenu` emits exactly one header row for each
category of the list and none for any other, and for the first item of each
category the rows up to it are those of the items before it, then the header
of its category, then the row of the item. -/
theorem renderMenu_one_header_per_category (items : List Item)
    (hne : ∀ it ∈ items, it.category ≠ "")
    (hcontig : Contiguous (items.map (fun it => it.category))) :
    (∀ c : String, (renderMenu items).count (Row.category c)
        = if c ∈ items.map (fun it => it.category) then 1 else 0)
    ∧ (∀ (pre post : List Item) (it : Item), items = pre ++ it :: post →
        (∀ q ∈ pre, q.category ≠ it.category) →
        ∃ tail, renderMenu items
          = renderMenu pre ++ Row.category it.category :: itemRow it :: tail) := by
  have hempty : "" ∉ items.map (fun it => it.category) := by
    intro hmem
    obtain ⟨it, hit, e⟩ := List.mem_map.1 hmem
    exact hne it hit e
  refine ⟨?_, ?_⟩
  · intro c
    unfold renderMenu
    rw [count_category_renderMenuFrom "" items
      (Contiguous.cons_of_not_mem "" _ hcontig hempty) c]
    by_cases hc : c ∈ items.map (fun it => it.category)
    · have : c ≠ "" := fun e => hempty (e ▸ hc)
      simp [hc, this]
    · simp [hc]
  · intro pre post it e hfirst
    unfold renderMenu
    obtain ⟨cur', hc, happ⟩ := renderMenuFrom_append "" pre (it :: post)
    have hit : it.category ≠ cur' := by
      rcases hc with hc | ⟨q, hq, hqc⟩
      · rw [hc]
        exact hne it (by rw [e]; simp)
      · rw [← hqc]
        exact fun e' => hfirst q hq e'.symm
    refine ⟨renderMenuFrom it.category post, ?_⟩
    rw [e, happ, renderMenuFrom, if_pos hit]

theorem renderMenu_one_header_per_category_witness :
    (renderMenu [⟨"A", "articles", "", "", "A"⟩, ⟨"B", "articles", "", "", "B"⟩,
        ⟨"A", "titles", "T", "t", "T"⟩]).count (Row.category "articles") = 1
    ∧ renderMenu [⟨"A", "articles", "", "", "A"⟩, ⟨"B", "articles", "", "", "B"⟩,
          ⟨"A", "titles", "T", "t", "T"⟩]
        = [Row.category "articles", itemRow ⟨"A", "articles", "", "", "A"⟩,
            itemRow ⟨"B", "articles", "", "", "B"⟩,
            Row.category "titles", itemRow ⟨"A", "titles", "T", "t", "T"⟩] :=
  ⟨(renderMenu_one_header_per_category
      [⟨"A", "articles", "", "", "A"⟩, ⟨"B", "articles", "", "", "B"⟩,
        ⟨"A", "titles", "T", "t", "T"⟩]
      (by decide)
      (by
        intro i j k c hij hjk hi hk
        rcases i with _ | _ | _ | i <;> rcases k with _ | _ | _ | k <;>
          rcases j with _ | _ | _ | j <;> simp_all <;> omega)).1 "articles",
   by decide⟩

/-! ## Lightbox -/

theorem htmlText_empty : htmlText "" = "" := by decide

theorem parseTextAux_of_plain (fuel : Nat) (s : List Char) (hf : s.length ≤ fuel)
    (h : ∀ c ∈ s, c ≠ '&' ∧ c ≠ '<') : parseTextAux fuel s = s := by
  induction s generalizing fuel with
  | nil => cases fuel <;> rfl
  | cons c rest ih =>
    have hc := h c (List.mem_cons_self _ _)
    cases fuel with
    | zero => simp at hf
    | succ n =>
      rw [parseTextAux, if_neg hc.1, if_neg hc.2,
        ih n (by simpa using hf) (fun d hd => h d (List.mem_cons_of_mem _ hd))]

/-- A text without special character is its own parsed text. -/
theorem htmlText_of_isPlainText (text : String) (h : isPlainText text = true) :
    htmlText text = text := by
  unfold htmlText
  apply String.ext
  show parseTextAux text.data.length text.data = text.data
  apply parseTextAux_of_plain _ _ (Nat.le_refl _)
  intro c hc
  have hall := (List.all_eq_true.1 h) c hc
  constructor
  · intro e; subst e; revert hall; decide
  · intro e; subst e; revert hall; decide

/-- On a document with the modal elements, `openImage` completes and leaves
the parsed caption text (or the empty string), the image source and the style
of the modal as assigned. -/
theorem openImage_of_hasModal (doc : Document) (image : Image) (hm : HasModal doc) :
    ∃ out, openImage doc image = some out
      ∧ (out "__lightboxCaption__").map Element.content
          = some (match doc (image.id ++ "_caption") with
                  | some c => htmlText c.content
                  | none => "")
      ∧ (out "__lightboxContent__").map Element.src = some image.src
      ∧ (out "__lightbox__").map Element.display = some "block"
      ∧ (out "__lightbox__").map Element.background = some "white" := by
  obtain ⟨h1, h2, h3⟩ := hm
  obtain ⟨lb, hlb⟩ := Option.isSome_iff_exists.1 h1
  obtain ⟨lc, hlc⟩ := Option.isSome_iff_exists.1 h2
  obtain ⟨cap, hcap⟩ := Option.isSome_iff_exists.1 h3
  cases hc : doc (image.id ++ "_caption") with
  | none =>
    simp [openImage, Document.modify, hc, hlb, hlc, hcap, bind, Option.bind, htmlText_empty]
  | some c =>
    simp [openImage, Document.modify, hc, hlb, hlc, hcap, bind, Option.bind]

/-- On a document with the modal elements in which the element
`image.id + "_caption"` exists and has a text without special character,
`openImage(image)` completes, the modal caption holds the text of that
element, the modal image has the source of the image and the modal is
displayed as `block`. -/
theorem openImage_copies_plain_caption (doc : Document) (image : Image) (c : Element)
    (hm : HasModal doc) (hc : doc (image.id ++ "_caption") = some c)
    (hplain : isPlainText c.content = true) :
    ∃ out, openImage doc image = some out
      ∧ (out "__lightboxCaption__").map Element.content = some c.content
      ∧ (out "__lightboxContent__").map Element.src = some image.src
      ∧ (out "__lightbox__").map Element.display = some "block" := by
  obtain ⟨out, ho, h1, h2, h3, _⟩ := openImage_of_hasModal doc image hm
  rw [hc] at h1
  simp only [htmlText_of_isPlainText c.content hplain] at h1
  exact ⟨out, ho, h1, h2, h3⟩

theorem openImage_copies_plain_caption_witness :
    ∃ out, openImage
      (fun id =>
        if id = "fig1_caption" then some ⟨"Figure 1", "", "", ""⟩
        else if id = "__lightboxCaption__" then some ⟨"old caption", "", "", ""⟩
        else if id = "__lightboxContent__" then some ⟨"", "old.png", "", ""⟩
        else if id = "__lightbox__" then some ⟨"", "", "none", ""⟩
        else none)
      ⟨"fig1", "img/fig1.png"⟩ = some out
      ∧ (out "__lightboxCaption__").map Element.content = some "Figure 1"
      ∧ (out "__lightboxContent__").map Element.src = some "img/fig1.png"
      ∧ (out "__lightbox__").map Element.display = some "block" :=
  openImage_copies_plain_caption _ ⟨"fig1", "img/fig1.png"⟩ ⟨"Figure 1", "", "", ""⟩
    (by unfold HasModal; decide) (by decide) (by decide)

/-- C9 (code defect): `openImage` assigns the text of the caption element to
`innerHTML`, which parses it as markup.  For a caption element whose text is
`<b>x</b>` the modal caption holds the text `x`, and for the text
`R&amp;D & more` it holds `R&D & more`: in both cases not the text of the
caption element. -/
theorem openImage_parses_caption_text :
    ((openImage
        (fun id =>
          if id = "fig1_caption" then some ⟨"<b>x</b>", "", "", ""⟩
          else if id = "__lightboxCaption__" then some ⟨"", "", "", ""⟩
          else if id = "__lightboxContent__" then some ⟨"", "", "", ""⟩
          else if id = "__lightbox__" then some ⟨"", "", "none", ""⟩
          else none)
        ⟨"fig1", "img/fig1.png"⟩).bind (fun out => out "__lightboxCaption__")).map
        Element.content = some "x"
    ∧ ((openImage
        (fun id =>
          if id = "fig1_caption" then some ⟨"R&amp;D & more", "", "", ""⟩
          else if id = "__lightboxCaption__" then some ⟨"", "", "", ""⟩
          else if id = "__lightboxContent__" then some ⟨"", "", "", ""⟩
          else if id = "__lightbox__" then some ⟨"", "", "none", ""⟩
          else none)
        ⟨"fig1", "img/fig1.png"⟩).bind (fun out => out "__lightboxCaption__")).map
        Element.content = some "R&D & more" := by
  decide

/-- C10: on a document with the modal elements and without an element
`image.id + "_caption"`, `openImage(image)` completes without error, the modal
caption is the empty string whatever it was before, the modal image has the
source of the image and the modal is displayed as `block`. -/
theorem openImage_clears_caption (doc : Document) (image : Image)
    (hm : HasModal doc) (hc : doc (image.id ++ "_caption") = none) :
    ∃ out, openImage doc image = some out
      ∧ (out "__lightboxCaption__").map Element.content = some ""
      ∧ (out "__lightboxContent__").map Element.src = some image.src
      ∧ (out "__lightbox__").map Element.display = some "block" := by
  obtain ⟨out, ho, h1, h2, h3, _⟩ := openImage_of_hasModal doc image hm
  rw [hc] at h1
  exact ⟨out, ho, h1, h2, h3⟩

theorem openImage_clears_caption_witness :
    ∃ out, openImage
      (fun id =>
        if id = "__lightboxCaption__" then some ⟨"old caption", "", "", ""⟩
        else if id = "__lightboxContent__" then some ⟨"", "old.png", "", ""⟩
        else if id = "__lightbox__" then some ⟨"", "", "none", ""⟩
        else none)
      ⟨"fig2", "img/fig2.png"⟩ = some out
      ∧ (out "__lightboxCaption__").map Element.content = some ""
      ∧ (out "__lightboxContent__").map Element.src = some "img/fig2.png"
      ∧ (out "__lightbox__").map Element.display = some "block" :=
  openImage_clears_caption _ ⟨"fig2", "img/fig2.png"⟩
    (by unfold HasModal; decide) (by decide)

/-- The id of a caption element is none of the ids of the modal elements: it
ends in the letter `n`, they end in an underscore. -/
theorem captionID_ne_modal (id : String) :
    id ++ "_caption" ≠ "__lightbox__" ∧ id ++ "_caption" ≠ "__lightboxContent__"
      ∧ id ++ "_caption" ≠ "__lightboxCaption__" := by
  have key : ∀ t : String, t.data.reverse.head? = some '_' → id ++ "_caption" ≠ t := by
    intro t ht e
    have h := congrArg (fun s : String => s.data.reverse.head?) e
    have hc : "_caption".data.reverse = 'n' :: "_captio".data.reverse := by decide
    simp only [String.data_append, List.reverse_append, hc, List.cons_append,
      List.head?_cons, ht] at h
    revert h
    decide
  exact ⟨key _ (by decide), key _ (by decide), key _ (by decide)⟩

/-- C11: on a document with the modal elements, `closeModal()` completes and
leaves the modal with display `none`; the background of the modal, the modal
caption, the modal image and every other element are as before the call, and a
second `closeModal()` gives the same document again. -/
theorem closeModal_hides_only (doc : Document) (hm : HasModal doc) :
    ∃ out, closeModal doc = some out
      ∧ (out "__lightbox__").map Element.display = some "none"
      ∧ (out "__lightbox__").map Element.background
          = (doc "__lightbox__").map Element.background
      ∧ (out "__lightbox__").map Element.content = (doc "__lightbox__").map Element.content
      ∧ (out "__lightbox__").map Element.src = (doc "__lightbox__").map Element.src
      ∧ out "__lightboxCaption__" = doc "__lightboxCaption__"
      ∧ out "__lightboxContent__" = doc "__lightboxContent__"
      ∧ (∀ id : String, id ≠ "__lightbox__" → out id = doc id)
      ∧ closeModal out = some out := by
  obtain ⟨h1, _, _⟩ := hm
  obtain ⟨lb, hlb⟩ := Option.isSome_iff_exists.1 h1
  refine ⟨fun k => if k = "__lightbox__" then some { lb with display := "none" } else doc k,
    by simp [closeModal, Document.modify, hlb], ?_, ?_, ?_, ?_, ?_, ?_, ?_, ?_⟩
  · simp
  · simp [hlb]
  · simp [hlb]
  · simp [hlb]
  · simp
  · simp
  · intro id hid
    simp [hid]
  · simp only [closeModal, Document.modify, if_true, Option.some.injEq]
    funext k
    by_cases hk : k = "__lightbox__" <;> simp [hk]

theorem closeModal_hides_only_witness :
    ∃ out, closeModal
        (fun id =>
          if id = "__lightboxCaption__" then some ⟨"Figure 1", "", "", ""⟩
          else if id = "__lightboxContent__" then some ⟨"", "img/fig1.png", "", ""⟩
          else if id = "__lightbox__" then some ⟨"", "", "block", "white"⟩
          else none) = some out
      ∧ (out "__lightbox__").map Element.display = some "none"
      ∧ (out "__lightbox__").map Element.background = some "white"
      ∧ out "__lightboxCaption__" = some ⟨"Figure 1", "", "", ""⟩
      ∧ out "__lightboxContent__" = some ⟨"", "img/fig1.png", "", ""⟩
      ∧ closeModal out = some out := by
  obtain ⟨out, h0, h1, h2, _, _, h5, h6, _, h8⟩ := closeModal_hides_only
    (fun id =>
      if id = "__lightboxCaption__" then some ⟨"Figure 1", "", "", ""⟩
      else if id = "__lightboxContent__" then some ⟨"", "img/fig1.png", "", ""⟩
      else if id = "__lightbox__" then some ⟨"", "", "block", "white"⟩
      else none) (by unfold HasModal; decide)
  exact ⟨out, h0, h1, h2, h5, h6, h8⟩

/-- On a document with the modal elements in which the caption text of `a`,
if there is one, has no `<` (so that parsing it builds no element),
`openImage(a)` followed by `openImage(b)` completes and leaves the same
document as `openImage(b)` alone. -/
theorem openImage_reopen_of_tagless (doc : Document) (a b : Image) (hm : HasModal doc)
    (_ha : ∀ c : Element, doc (a.id ++ "_caption") = some c → '<' ∉ c.content.data) :
    ∃ out, openImage doc b = some out
      ∧ (openImage doc a).bind (fun d => openImage d b) = some out := by
  obtain ⟨h1, h2, h3⟩ := hm
  obtain ⟨lb, hlb⟩ := Option.isSome_iff_exists.1 h1
  obtain ⟨lc, hlc⟩ := Option.isSome_iff_exists.1 h2
  obtain ⟨cap, hcap⟩ := Option.isSome_iff_exists.1 h3
  obtain ⟨n1, n2, n3⟩ := captionID_ne_modal b.id
  cases ha : doc (a.id ++ "_caption") <;> cases hb : doc (b.id ++ "_caption") <;>
    · refine ⟨_, by simp [openImage, Document.modify, hb, hlb, hlc, hcap, bind, Option.bind]; rfl,
        ?_⟩
      simp only [openImage, Document.modify, ha, hb, hlb, hlc, hcap, bind, Option.bind,
        n1, n2, n3, if_true, if_false, String.reduceEq, Option.some.injEq]
      funext k
      by_cases k1 : k = "__lightbox__"
      · simp [k1]
      · by_cases k2 : k = "__lightboxContent__"
        · simp [k2]
        · by_cases k3 : k = "__lightboxCaption__"
          · simp [k3]
          · simp [k1, k2, k3]

theorem openImage_reopen_of_tagless_witness :
    ∃ out, openImage
        (fun id =>
          if id = "fig2_caption" then some ⟨"Figure 2", "", "", ""⟩
          else if id = "__lightboxCaption__" then some ⟨"", "", "", ""⟩
          else if id = "__lightboxContent__" then some ⟨"", "", "", ""⟩
          else if id = "__lightbox__" then some ⟨"", "", "none", ""⟩
          else none) ⟨"fig2", "img/fig2.png"⟩ = some out
      ∧ (openImage
          (fun id =>
            if id = "fig2_caption" then some ⟨"Figure 2", "", "", ""⟩
            else if id = "__lightboxCaption__" then some ⟨"", "", "", ""⟩
            else if id = "__lightboxContent__" then some ⟨"", "", "", ""⟩
            else if id = "__lightbox__" then some ⟨"", "", "none", ""⟩
            else none) ⟨"fig1", "img/fig1.png"⟩).bind
          (fun d => openImage d ⟨"fig2", "img/fig2.png"⟩) = some out :=
  openImage_reopen_of_tagless _ ⟨"fig1", "img/fig1.png"⟩ ⟨"fig2", "img/fig2.png"⟩
    (by unfold HasModal; decide) (by intro c hc; simp at hc)

/-! ## Resource path of the fetched index -/

/-- C13: for every location, the `jsonPath` computed by `search.js` is
`./resources/articles.json` exactly when the detected depth is 0,
`../resources/articles.json` exactly when it is 1 and
`../../resources/articles.json` exactly when it is 2, and the depth is one of
0, 1 and 2. -/
theorem jsonPath_agrees_with_depth (loc : String) :
    ((plainDetect loc).1 = "./resources/articles.json" ↔ (plainDetect loc).2 = 0)
    ∧ ((plainDetect loc).1 = "../resources/articles.json" ↔ (plainDetect loc).2 = 1)
    ∧ ((plainDetect loc).1 = "../../resources/articles.json" ↔ (plainDetect loc).2 = 2)
    ∧ ((plainDetect loc).2 = 0 ∨ (plainDetect loc).2 = 1 ∨ (plainDetect loc).2 = 2) := by
  unfold plainDetect
  simp only []
  split_ifs <;> simp

/-! ## Order of the menu and of the suggestion list -/

theorem filter_renderMenuFrom (cur : String) (items : List Item) :
    (renderMenuFrom cur items).filter (fun r => !r.isCategory) = items.map itemRow := by
  induction items generalizing cur with
  | nil => rfl
  | cons it rest ih =>
    have hi : (itemRow it).isCategory = false := rfl
    have hc : (Row.category it.category).isCategory = true := rfl
    by_cases hcur : it.category = cur
    · simp [renderMenuFrom, hcur, ih, hi]
    · simp [renderMenuFrom, hcur, ih, hi, hc]

/-- C14: for every list of items, the rows of `_renderMenu` other than the
category headers are the rows of the input items, one for each item, in the
order of the input. -/
theorem renderMenu_keeps_order (items : List Item) :
    (renderMenu items).filter (fun r => !r.isCategory) = items.map itemRow :=
  filter_renderMenuFrom "" items

theorem plainLoop_tags (data : List ArticleRecord) (st : List String × PathTable) :
    (plainLoop data st).1 = st.1 ++ data.map (fun r => r.name) := by
  induction data generalizing st with
  | nil => simp [plainLoop]
  | cons r rest ih =>
    obtain ⟨tags, paths⟩ := st
    rw [plainLoop, ih]
    simp

theorem titlesLoop_tags (data : List ArticleRecord) (st : List Item × PathTable) :
    (titlesLoop data st).1 = st.1 ++ data.map mkItem := by
  induction data generalizing st with
  | nil => simp [titlesLoop]
  | cons r rest ih =>
    obtain ⟨tags, paths⟩ := st
    rw [titlesLoop, ih]
    simp

/-- C15: for every list of records, the suggestion list of the plain loader is
the list of the names of the records, and that of the category-aware loader
the list of the items built from the records, both of the length and in the
order of the records; the item of a record carries its name, category, title
and titleID, and its label is the name for the category `articles` and the
title for any other category. -/
theorem loader_tags_follow_records (data : List ArticleRecord) :
    (plainLoad data).1 = data.map (fun r => r.name)
    ∧ (plainLoad data).1.length = data.length
    ∧ (titlesLoad data).1 = data.map mkItem
    ∧ (titlesLoad data).1.length = data.length
    ∧ (∀ r : ArticleRecord,
        (mkItem r).name = r.name ∧ (mkItem r).category = r.category
        ∧ (mkItem r).title = r.title ∧ (mkItem r).titleID = r.titleID
        ∧ (r.category = "articles" → (mkItem r).label = r.name)
        ∧ (r.category ≠ "articles" → (mkItem r).label = r.title)) := by
  have hp : (plainLoad data).1 = data.map (fun r => r.name) := by
    unfold plainLoad; rw [plainLoop_tags]; simp
  have ht : (titlesLoad data).1 = data.map mkItem := by
    unfold titlesLoad; rw [titlesLoop_tags]; simp
  refine ⟨hp, by rw [hp, List.length_map], ht, by rw [ht, List.length_map], ?_⟩
  intro r
  refine ⟨rfl, rfl, rfl, rfl, ?_, ?_⟩
  · intro h; simp [mkItem, h]
  · intro h; simp [mkItem, h]

end Wiki
